import Mathlib

/-!
Verification development for the vocabulary flashcard trainer
(`script.js` of the vocab-app repository).

JavaScript strings are modelled as `List Char` (`JStr`), and the string
operations the source uses (`trim`, `split(/\r?\n/)`, the quote-aware comma
split, `split(/;|\|/)`, `split(' ')`, `toLowerCase`) are translated into
structural recursions over character lists so that every definition is
executable and kernel-reducible.  Randomness (`Math.random` driving the
Fisher-Yates shuffle) is modelled by explicit number sources
`Nat → Nat`: at loop index `i` the JavaScript draw
`Math.floor(Math.random() * (i + 1))` becomes `r i % (i + 1)`.
The browser `localStorage` is modelled as explicit values passed in and
returned (a JSON object is an insertion-ordered association list, matching
JavaScript object-key semantics: updating an existing key keeps its
position, a new key is appended).
-/

namespace VocabApp

/-- JavaScript strings, modelled as lists of characters. -/
abbrev JStr := List Char

/-- Characters stripped by JavaScript `String.prototype.trim` (ASCII part:
space, tab, newline, carriage return, vertical tab, form feed). -/
def jsWhite (c : Char) : Bool :=
  c = ' ' || c = '\t' || c = '\n' || c = '\x0d' || c = '\x0b' || c = '\x0c'

/-- JavaScript `s.trim()`: drop whitespace from both ends. -/
def trimJS (s : JStr) : JStr :=
  ((s.dropWhile jsWhite).reverse.dropWhile jsWhite).reverse

/-- JavaScript `s.split(/\r?\n/)`: split on `"\n"`, also consuming one
carriage return immediately before each newline. -/
def splitLines : JStr → List JStr
  | [] => [[]]
  | '\x0d' :: '\n' :: cs => [] :: splitLines cs
  | '\n' :: cs => [] :: splitLines cs
  | c :: cs =>
    match splitLines cs with
    | s :: ss => (c :: s) :: ss
    | [] => [[c]]

/-- JavaScript `line.split(/,(?![^"]*")/g)`: a comma is a separator exactly
when no double quote occurs anywhere after it in the line (the negative
lookahead `[^"]*"` succeeds iff some quote follows). -/
def splitCommaNQ : JStr → List JStr
  | [] => [[]]
  | c :: cs =>
    if c = ',' ∧ ¬ cs.contains '"' then [] :: splitCommaNQ cs
    else
      match splitCommaNQ cs with
      | s :: ss => (c :: s) :: ss
      | [] => [[c]]

/-- Generic single-character-class splitter, used for `split(/;|\|/)` and
`split(' ')`. -/
def splitOnP (p : Char → Bool) : JStr → List JStr
  | [] => [[]]
  | c :: cs =>
    if p c then [] :: splitOnP p cs
    else
      match splitOnP p cs with
      | s :: ss => (c :: s) :: ss
      | [] => [[c]]

/-- JavaScript `s.toLowerCase()` (character-wise lowering). -/
def toLowerL (s : JStr) : JStr := s.map Char.toLower

/-- JavaScript `a || b` on strings: the empty string is falsy. -/
def jsOr (a b : JStr) : JStr := if a = [] then b else a

/-- One parsed word entry: `{ word, meaning, synonyms, antonyms, example }`. -/
structure WordEntry where
  word : JStr
  meaning : JStr
  synonyms : List JStr
  antonyms : List JStr
  exampleTxt : JStr
deriving DecidableEq

/-- `synStr.split(/;|\|/).map((s) => s.trim()).filter(Boolean)`. -/
def splitSynAnt (s : JStr) : List JStr :=
  ((splitOnP (fun c => c = ';' || c = '|') s).map trimJS).filter (· ≠ [])

/-- The body of the `parseCSV` loop for one line: skip a falsy (empty) line,
split into fields, skip a line with fewer than 5 fields, otherwise
destructure the FIRST five fields (extra fields are discarded) and build
the entry with trimmed scalars. -/
def lineEntry (line : JStr) : Option WordEntry :=
  if line = [] then none
  else
    match splitCommaNQ line with
    | word :: meaning :: synStr :: antStr :: ex :: _ =>
      some { word := trimJS word
             meaning := trimJS meaning
             synonyms := splitSynAnt synStr
             antonyms := splitSynAnt antStr
             exampleTxt := trimJS ex }
    | _ => none

/-- The accumulation loop of `parseCSV` over the data lines, in order. -/
def parseBody (lines : List JStr) : List WordEntry :=
  lines.filterMap lineEntry

/-- `parseCSV(text)`: trim the whole text, split into lines, discard the
header line unconditionally (`lines.shift()`), then process each line. -/
def parseCSV (text : JStr) : List WordEntry :=
  parseBody ((splitLines (trimJS text)).drop 1)

/-- The destructuring swap `[a[i], a[j]] = [a[j], a[i]]` (identity when an
index is out of range; in `shuffleArray` both always are in range). -/
def swapL {α : Type} (l : List α) (i j : Nat) : List α :=
  match l.get? i, l.get? j with
  | some a, some b => (l.set i b).set j a
  | _, _ => l

/-- The Fisher-Yates loop of `shuffleArray`, counting `i` down to 1; the
draw `Math.floor(Math.random() * (i + 1))` at index `i` is `r i % (i + 1)`. -/
def fyLoop {α : Type} (r : Nat → Nat) : Nat → List α → List α
  | 0, l => l
  | i + 1, l => fyLoop r i (swapL l (i + 1) (r (i + 1) % (i + 2)))

/-- `shuffleArray(array)` with the random draws supplied by `r`. -/
def shuffleArray {α : Type} (r : Nat → Nat) (l : List α) : List α :=
  fyLoop r (l.length - 1) l

/-- `entry.synonyms[0]` as a string (`undefined` and `""` are both falsy, so
the empty string stands for both). -/
def syn0 (e : WordEntry) : JStr := e.synonyms.headD []

/-- `s.split(' ')[0]` (always defined: splitting yields at least one piece). -/
def firstTok (s : JStr) : JStr := (splitOnP (fun c => c = ' ') s).headD []

/-- The correct answer as computed inside `generateOptions`:
`entry.synonyms[0] || entry.meaning.split(' ')[0] || entry.word`. -/
def optionsCorrect (e : WordEntry) : JStr :=
  jsOr (syn0 e) (jsOr (firstTok e.meaning) e.word)

/-- Candidate distractors: all synonyms of every entry whose `word` differs
from the given entry's `word` (strict `===` comparison), in pool order. -/
def candidatesFor (entry : WordEntry) (allEntries : List WordEntry) : List JStr :=
  (allEntries.filter (fun other => other.word ≠ entry.word)).flatMap (·.synonyms)

/-- Insertion-order deduplication, as performed by `new Set(...)` followed by
`Array.from`: the first occurrence of each string is kept. -/
def dedupFirstAux (seen : List JStr) : List JStr → List JStr
  | [] => []
  | x :: xs =>
    if x ∈ seen then dedupFirstAux seen xs
    else x :: dedupFirstAux (x :: seen) xs

/-- `Array.from(new Set(l))`. -/
def jsSetList (l : List JStr) : List JStr := dedupFirstAux [] l

/-- The shuffled candidate array of `generateOptions`: candidates filtered to
non-empty strings that are not a case-insensitive match of `correct`,
deduplicated, then shuffled. -/
def candidateArray (r : Nat → Nat) (entry : WordEntry) (allEntries : List WordEntry) : List JStr :=
  shuffleArray r (jsSetList ((candidatesFor entry allEntries).filter
    (fun c => c ≠ [] ∧ toLowerL c ≠ toLowerL (optionsCorrect entry))))

/-- The first scan of `generateOptions`: walk the shuffled candidates, stop
once 3 distractors are collected, and skip any candidate that
case-insensitively matches one of the entry's own synonyms. -/
def scanCandidates (ownSynonyms : List JStr) : List JStr → List JStr → List JStr
  | [], acc => acc
  | c :: cs, acc =>
    if acc.length ≥ 3 then acc
    else if ownSynonyms.any (fun s => toLowerL s = toLowerL c) then
      scanCandidates ownSynonyms cs acc
    else scanCandidates ownSynonyms cs (acc ++ [c])

/-- The fallback loop of `generateOptions`: scan the pool in original order,
appending any other entry's `word` (excluding the entry itself and any
case-insensitive match of `correct`) while fewer than 3 distractors exist. -/
def fallbackFill (entry : WordEntry) (correct : JStr) : List WordEntry → List JStr → List JStr
  | [], acc => acc
  | w :: ws, acc =>
    if acc.length ≥ 3 then acc
    else if w.word ≠ entry.word ∧ toLowerL w.word ≠ toLowerL correct then
      fallbackFill entry correct ws (acc ++ [w.word])
    else fallbackFill entry correct ws acc

/-- `while (distractors.length < 3) distractors.push('')`. -/
def padTo3 (l : List JStr) : List JStr := l ++ List.replicate (3 - l.length) []

/-- `generateOptions(entry, allEntries)`: correct answer plus three
distractors, shuffled; `r1` drives the candidate shuffle, `r2` the final
option shuffle. -/
def generateOptions (r1 r2 : Nat → Nat) (entry : WordEntry) (allEntries : List WordEntry) : List JStr :=
  let correct := optionsCorrect entry
  let distractors :=
    fallbackFill entry correct allEntries
      (scanCandidates entry.synonyms (candidateArray r1 entry allEntries) [])
  shuffleArray r2 (correct :: (padTo3 distractors).take 3)

/-- One recorded answer: `{ word, correct }`. -/
structure SessionResult where
  word : JStr
  correct : Bool
deriving DecidableEq

/-- One flashcard of a session: `{ entry, options, correct }`. -/
structure SessionCard where
  entry : WordEntry
  options : List JStr
  correct : JStr
deriving DecidableEq

/-- The correct answer stored on a session card by `initFlashcards`:
`entry.synonyms[0] || entry.word` (note: no `meaning` fallback here). -/
def cardCorrect (entry : WordEntry) : JStr := jsOr (syn0 entry) entry.word

/-- Card construction in the session-building `map` of `initFlashcards`. -/
def mkCard (r1 r2 : Nat → Nat) (allWords : List WordEntry) (entry : WordEntry) : SessionCard :=
  { entry := entry
    options := generateOptions r1 r2 entry allWords
    correct := cardCorrect entry }

/-- Session building in `initFlashcards`: shuffle a copy of the pool, take
`Math.min(10, entries.length)` entries, wrap each as a card (`g` supplies a
fresh random source for every shuffle performed). -/
def initSession (g : Nat → Nat → Nat) (allWords : List WordEntry) : List SessionCard :=
  let entries := shuffleArray (g 0) allWords
  (entries.take (min 10 entries.length)).mapIdx
    (fun i entry => mkCard (g (2 * i + 1)) (g (2 * i + 2)) allWords entry)

/-- The session loop of `initFlashcards`/`handleOptionClick`: dequeue the
front card, compare the selected option case-insensitively with the card's
`correct`, append a result, and on a wrong answer push a fresh card for the
same entry (regenerated options, same `correct`) to the back of the queue.
The session is complete (`some results`) exactly when the queue empties;
`none` models a session abandoned with cards still queued. -/
def runSession (g : Nat → Nat → Nat) (allWords : List WordEntry) :
    List JStr → Nat → List SessionCard → List SessionResult → Option (List SessionResult)
  | _, _, [], results => some results
  | [], _, _ :: _, _ => none
  | sel :: more, k, card :: rest, results =>
    let isCorrect := toLowerL sel == toLowerL card.correct
    let results2 := results ++ [{ word := card.entry.word, correct := isCorrect }]
    let queue2 :=
      if isCorrect then rest
      else rest ++ [{ entry := card.entry
                      options := generateOptions (g (2 * k)) (g (2 * k + 1)) card.entry allWords
                      correct := card.correct }]
    runSession g allWords more (k + 1) queue2 results2

/-- Per-word counters `{ attempts, correct }`. -/
structure WordStat where
  attempts : Nat
  correct : Nat
deriving DecidableEq

/-- One user's per-word counters, as an insertion-ordered JSON object. -/
abbrev WordMap := List (JStr × WordStat)

/-- The persisted `progress` mapping: username to per-word counters. -/
abbrev Progress := List (JStr × WordMap)

/-- JavaScript object property read `obj[k]` (insertion-ordered object). -/
def objGet {β : Type} (k : JStr) : List (JStr × β) → Option β
  | [] => none
  | (k2, v) :: rest => if k2 = k then some v else objGet k rest

/-- JavaScript object property write `obj[k] = v`: an existing key keeps its
position, a new key is appended. -/
def objSet {β : Type} (k : JStr) (v : β) : List (JStr × β) → List (JStr × β)
  | [] => [(k, v)]
  | (k2, v2) :: rest =>
    if k2 = k then (k2, v) :: rest else (k2, v2) :: objSet k v rest

/-- Counter update for one result: increment `attempts`, and `correct` if
the result was correct. -/
def incStat (st : WordStat) (b : Bool) : WordStat :=
  { attempts := st.attempts + 1
    correct := if b then st.correct + 1 else st.correct }

/-- Effect of one result on the user's word map: ensure the word's counter
exists (`{attempts: 0, correct: 0}`), then apply `incStat`. -/
def umStep (m : WordMap) (res : SessionResult) : WordMap :=
  objSet res.word (incStat ((objGet res.word m).getD { attempts := 0, correct := 0 }) res.correct) m

/-- The body of the `results.forEach` loop in `updateProgress`: the word-map
mutation `umStep` performed on `progress[username]`. -/
def applyResult (username : JStr) (p : Progress) (res : SessionResult) : Progress :=
  objSet username (umStep ((objGet username p).getD []) res) p

/-- `if (!progress[username]) progress[username] = {}`. -/
def ensureUser (username : JStr) (p : Progress) : Progress :=
  if (objGet username p).isSome then p else objSet username [] p

/-- `updateProgress(username, results)` as a transformation of the persisted
`progress` blob (`none` models an absent or corrupt blob, which the code
treats as the empty mapping). A falsy (empty) username is a no-op. -/
def updateProgress (store : Option Progress) (username : JStr) (results : List SessionResult) :
    Option Progress :=
  if username = [] then store
  else some (results.foldl (applyResult username) (ensureUser username (store.getD [])))

/-- Lookup of one user's word map in a persisted store. -/
def progGet (v : JStr) (store : Option Progress) : Option WordMap :=
  objGet v (store.getD [])

/-- Lookup of one user's counters for one word in a persisted store. -/
def wordGet (v w : JStr) (store : Option Progress) : Option WordStat :=
  (progGet v store).bind (objGet w)

/-- Number of results in a session that concern word `w`. -/
def cntWord (w : JStr) (results : List SessionResult) : Nat :=
  results.countP (fun r => decide (r.word = w))

/-- Number of correct results in a session that concern word `w`. -/
def cntCorrect (w : JStr) (results : List SessionResult) : Nat :=
  results.countP (fun r => decide (r.word = w) && r.correct)

/-- Well-formedness of a persisted store: every counter satisfies
`correct ≤ attempts`. -/
def wfStore (store : Option Progress) : Prop :=
  ∀ v w st, wordGet v w store = some st → st.correct ≤ st.attempts

/-- JavaScript `Math.round` on a non-negative quantity: `⌊q + 1/2⌋`
(halves round up), with the arithmetic idealized over the rationals. -/
def jsRound (q : ℚ) : ℤ := ⌊q + 1 / 2⌋

/-- `totalAttempts` accumulation of `renderDashboard` / `renderAdminProgress`. -/
def sumAttempts (m : WordMap) : Nat := m.foldl (fun acc e => acc + e.2.attempts) 0

/-- `totalCorrect` accumulation of `renderDashboard` / `renderAdminProgress`. -/
def sumCorrect (m : WordMap) : Nat := m.foldl (fun acc e => acc + e.2.correct) 0

/-- The overall accuracy computed by `renderDashboard`:
`totalAttempts ? Math.round((totalCorrect / totalAttempts) * 100) : 0`. -/
def dashboardAccuracy (userProgress : WordMap) : ℤ :=
  let totalAttempts := sumAttempts userProgress
  let totalCorrect := sumCorrect userProgress
  if totalAttempts = 0 then 0
  else jsRound ((totalCorrect : ℚ) / (totalAttempts : ℚ) * 100)

/-- The per-word accuracy computed in the `renderDashboard` table:
`entry.attempts ? Math.round((entry.correct / entry.attempts) * 100) : 0`. -/
def wordAccuracy (st : WordStat) : ℤ :=
  if st.attempts = 0 then 0
  else jsRound ((st.correct : ℚ) / (st.attempts : ℚ) * 100)

/-- The per-student accuracy computed by `renderAdminProgress`:
`attempts ? Math.round((correct / attempts) * 100) : 0` over the student's
summed counters. -/
def adminAccuracy (entries : WordMap) : ℤ :=
  let attempts := sumAttempts entries
  let correct := sumCorrect entries
  if attempts = 0 then 0
  else jsRound ((correct : ℚ) / (attempts : ℚ) * 100)

/-- The CSV upload handler of `initAdmin` as a transformation of the `words`
store key: zero parsed entries is rejected (flag `false`, store unchanged),
otherwise the key is fully replaced by the parsed entries (flag `true`). -/
def uploadCSVHandler (wordsStore : Option (List WordEntry)) (text : JStr) :
    Option (List WordEntry) × Bool :=
  let entries := parseCSV text
  if entries.length = 0 then (wordsStore, false)
  else (some entries, true)

/-- Follows the spec's words (§3 SessionCard), for comparison with the code's
`cardCorrect`: `correctAnswer` = `entry.synonyms[0]` if non-empty, else the
first space-delimited token of `entry.meaning`, else `entry.word`. -/
def specCorrectAnswer (e : WordEntry) : JStr :=
  jsOr (syn0 e) (jsOr (firstTok e.meaning) e.word)

/-- Concrete sample entry with one synonym. -/
def eKitty : WordEntry :=
  { word := ("cat").data, meaning := ("feline").data, synonyms := [("kitty").data],
    antonyms := [], exampleTxt := [] }

/-- Concrete sample entry with no synonyms but a non-empty meaning. -/
def eNoSyn : WordEntry :=
  { word := ("cat").data, meaning := ("feline").data, synonyms := [],
    antonyms := [], exampleTxt := [] }

/-- Concrete degenerate entry: empty word, meaning and synonym list (as
produced by `parseCSV` from the data line `",,,,x"`, dropping the example). -/
def eDegenerate : WordEntry :=
  { word := [], meaning := [], synonyms := [], antonyms := [], exampleTxt := [] }

/-! Helper lemmas: the Fisher-Yates shuffle permutes its input. -/

theorem cons_get_set_perm {α : Type} :
    ∀ (t : List α) (k : Nat) (hk : k < t.length) (a : α),
      List.Perm (t.get ⟨k, hk⟩ :: t.set k a) (a :: t)
  | b :: t2, 0, _, a => List.Perm.swap a b t2
  | b :: t2, k + 1, hk, a =>
    ((List.Perm.swap b (t2.get ⟨k, Nat.lt_of_succ_lt_succ hk⟩) (t2.set k a)).trans
      ((cons_get_set_perm t2 k (Nat.lt_of_succ_lt_succ hk) a).cons b)).trans
      (List.Perm.swap a b t2)

theorem set_set_perm {α : Type} :
    ∀ (l : List α) (i j : Nat) (hi : i < l.length) (hj : j < l.length),
      List.Perm ((l.set i (l.get ⟨j, hj⟩)).set j (l.get ⟨i, hi⟩)) l := by
  intro l
  induction l with
  | nil => intro i j hi _; exact absurd hi (Nat.not_lt_zero i)
  | cons a t ih =>
    intro i j hi hj
    match i, j with
    | 0, 0 => simp
    | 0, k + 1 =>
      simpa using cons_get_set_perm t k (Nat.lt_of_succ_lt_succ hj) a
    | m + 1, 0 =>
      simpa using cons_get_set_perm t m (Nat.lt_of_succ_lt_succ hi) a
    | m + 1, k + 1 =>
      simpa using (ih m k (Nat.lt_of_succ_lt_succ hi) (Nat.lt_of_succ_lt_succ hj)).cons a

theorem swapL_perm {α : Type} (l : List α) (i j : Nat) : List.Perm (swapL l i j) l := by
  unfold swapL
  cases h1 : l.get? i with
  | none => cases h2 : l.get? j <;> exact List.Perm.refl l
  | some a =>
    cases h2 : l.get? j with
    | none => exact List.Perm.refl l
    | some b =>
      obtain ⟨hi, ha⟩ := List.get?_eq_some.mp h1
      obtain ⟨hj, hb⟩ := List.get?_eq_some.mp h2
      subst ha; subst hb
      exact set_set_perm l i j hi hj

theorem fyLoop_perm {α : Type} (r : Nat → Nat) :
    ∀ (n : Nat) (l : List α), List.Perm (fyLoop r n l) l
  | 0, _ => List.Perm.refl _
  | n + 1, l =>
    (fyLoop_perm r n (swapL l (n + 1) (r (n + 1) % (n + 2)))).trans
      (swapL_perm l (n + 1) (r (n + 1) % (n + 2)))

theorem shuffleArray_perm {α : Type} (r : Nat → Nat) (l : List α) :
    List.Perm (shuffleArray r l) l :=
  fyLoop_perm r (l.length - 1) l

theorem shuffleArray_length {α : Type} (r : Nat → Nat) (l : List α) :
    (shuffleArray r l).length = l.length :=
  (shuffleArray_perm r l).length_eq

theorem shuffleArray_mem {α : Type} (r : Nat → Nat) (l : List α) (x : α) :
    x ∈ shuffleArray r l ↔ x ∈ l :=
  (shuffleArray_perm r l).mem_iff

theorem shuffleArray_countP {α : Type} (r : Nat → Nat) (l : List α) (p : α → Bool) :
    (shuffleArray r l).countP p = l.countP p :=
  (shuffleArray_perm r l).countP_eq p

/-! Helper lemmas: structural facts about `generateOptions`. -/

theorem dedupFirstAux_subset :
    ∀ (seen l : List JStr) (x : JStr), x ∈ dedupFirstAux seen l → x ∈ l := by
  intro seen l
  induction l generalizing seen with
  | nil => intro x hx; exact absurd hx (List.not_mem_nil x)
  | cons c cs ih =>
    intro x hx
    unfold dedupFirstAux at hx
    split at hx
    · exact List.mem_cons_of_mem c (ih seen x hx)
    · rcases List.mem_cons.mp hx with h | h
      · exact h ▸ List.mem_cons_self c cs
      · exact List.mem_cons_of_mem c (ih (c :: seen) x h)

theorem candidateArray_prop (r : Nat → Nat) (entry : WordEntry) (allEntries : List WordEntry) :
    ∀ x ∈ candidateArray r entry allEntries, toLowerL x ≠ toLowerL (optionsCorrect entry) := by
  intro x hx
  rw [candidateArray, shuffleArray_mem] at hx
  have hx2 := dedupFirstAux_subset [] _ x hx
  rw [List.mem_filter] at hx2
  have := hx2.2
  simp only [decide_eq_true_eq] at this
  exact this.2

theorem scanCandidates_mem {own : List JStr} :
    ∀ (cs acc : List JStr) (x : JStr), x ∈ scanCandidates own cs acc → x ∈ acc ∨ x ∈ cs := by
  intro cs
  induction cs with
  | nil => intro acc x hx; exact Or.inl hx
  | cons c cs ih =>
    intro acc x hx
    unfold scanCandidates at hx
    split at hx
    · exact Or.inl hx
    · split at hx
      · rcases ih acc x hx with h | h
        · exact Or.inl h
        · exact Or.inr (List.mem_cons_of_mem c h)
      · rcases ih (acc ++ [c]) x hx with h | h
        · rcases List.mem_append.mp h with h2 | h2
          · exact Or.inl h2
          · exact Or.inr (List.mem_singleton.mp h2 ▸ List.mem_cons_self c cs)
        · exact Or.inr (List.mem_cons_of_mem c h)

theorem fallbackFill_prop (entry : WordEntry) (correct : JStr) :
    ∀ (ws : List WordEntry) (acc : List JStr),
      (∀ x ∈ acc, toLowerL x ≠ toLowerL correct) →
      ∀ x ∈ fallbackFill entry correct ws acc, toLowerL x ≠ toLowerL correct := by
  intro ws
  induction ws with
  | nil => intro acc hacc x hx; exact hacc x hx
  | cons w ws ih =>
    intro acc hacc x hx
    unfold fallbackFill at hx
    split at hx
    · exact hacc x hx
    · split at hx
      · refine ih (acc ++ [w.word]) ?_ x hx
        intro y hy
        rcases List.mem_append.mp hy with h | h
        · exact hacc y h
        · rename_i hcond
          rw [List.mem_singleton.mp h]
          exact hcond.2
      · exact ih acc hacc x hx

theorem padTo3_mem (l : List JStr) (x : JStr) (hx : x ∈ padTo3 l) : x ∈ l ∨ x = [] := by
  unfold padTo3 at hx
  rcases List.mem_append.mp hx with h | h
  · exact Or.inl h
  · exact Or.inr (List.eq_of_mem_replicate h)

theorem generateOptions_length (r1 r2 : Nat → Nat) (entry : WordEntry)
    (allEntries : List WordEntry) :
    (generateOptions r1 r2 entry allEntries).length = 4 := by
  unfold generateOptions
  rw [shuffleArray_length]
  simp only [List.length_cons, List.length_take, padTo3, List.length_append,
    List.length_replicate]
  omega

theorem distractors_not_correct (r1 : Nat → Nat) (entry : WordEntry)
    (allEntries : List WordEntry) (h : optionsCorrect entry ≠ []) :
    ∀ x ∈ (padTo3 (fallbackFill entry (optionsCorrect entry) allEntries
        (scanCandidates entry.synonyms (candidateArray r1 entry allEntries) []))).take 3,
      toLowerL x ≠ toLowerL (optionsCorrect entry) := by
  intro x hx
  have hx2 := List.take_subset 3 _ hx
  rcases padTo3_mem _ x hx2 with h3 | h3
  · refine fallbackFill_prop entry (optionsCorrect entry) allEntries _ ?_ x h3
    intro y hy
    rcases scanCandidates_mem _ [] y hy with h4 | h4
    · exact absurd h4 (List.not_mem_nil y)
    · exact candidateArray_prop r1 entry allEntries y h4
  · subst h3
    intro hcontra
    exact h (List.map_eq_nil_iff.mp hcontra.symm)

theorem generateOptions_correct_count (r1 r2 : Nat → Nat) (entry : WordEntry)
    (allEntries : List WordEntry) (h : optionsCorrect entry ≠ []) :
    (generateOptions r1 r2 entry allEntries).countP
      (fun o => toLowerL o == toLowerL (optionsCorrect entry)) = 1 := by
  unfold generateOptions
  rw [shuffleArray_countP, List.countP_cons]
  have hzero : (List.countP (fun o => toLowerL o == toLowerL (optionsCorrect entry))
      ((padTo3 (fallbackFill entry (optionsCorrect entry) allEntries
        (scanCandidates entry.synonyms (candidateArray r1 entry allEntries) []))).take 3)) = 0 := by
    rw [List.countP_eq_zero]
    intro a ha
    simp only [beq_iff_eq]
    exact distractors_not_correct r1 entry allEntries h a ha
  rw [hzero]
  simp

theorem optionsCorrect_mem (r1 r2 : Nat → Nat) (entry : WordEntry)
    (allEntries : List WordEntry) :
    optionsCorrect entry ∈ generateOptions r1 r2 entry allEntries := by
  unfold generateOptions
  rw [shuffleArray_mem]
  exact List.mem_cons_self _ _

/-! Helper lemmas: the session queue invariant. -/

theorem runSession_length_eq (g : Nat → Nat → Nat) (allWords : List WordEntry) :
    ∀ (answers : List JStr) (k : Nat) (queue : List SessionCard)
      (results final : List SessionResult),
      runSession g allWords answers k queue results = some final →
      final.length + results.countP (fun r => !r.correct) =
        results.length + queue.length + final.countP (fun r => !r.correct) := by
  intro answers
  induction answers with
  | nil =>
    intro k queue results final h
    cases queue with
    | nil =>
      rw [runSession] at h
      cases h
      simp
    | cons card rest => exact absurd h (by rw [runSession]; exact Option.noConfusion)
  | cons sel more ih =>
    intro k queue results final h
    cases queue with
    | nil =>
      rw [runSession] at h
      cases h
      simp
    | cons card rest =>
      rw [runSession] at h
      have h2 := ih (k + 1) _ _ final h
      by_cases hb : (toLowerL sel == toLowerL card.correct) = true
      · rw [if_pos hb] at h2
        simp only [hb] at h2
        simp at h2
        simp only [List.length_cons]
        omega
      · rw [if_neg hb] at h2
        rw [Bool.not_eq_true] at hb
        simp only [hb] at h2
        simp at h2
        simp only [List.length_cons]
        omega

theorem initSession_length (g : Nat → Nat → Nat) (allWords : List WordEntry) :
    (initSession g allWords).length = min 10 allWords.length := by
  unfold initSession
  rw [List.length_mapIdx, List.length_take, shuffleArray_length]
  omega

/-! Helper lemmas: object reads and writes, and the `updateProgress` folds. -/

theorem objGet_objSet_self {B : Type} (k : JStr) (v : B) :
    ∀ p : List (JStr × B), objGet k (objSet k v p) = some v := by
  intro p
  induction p with
  | nil => simp [objGet, objSet]
  | cons e rest ih =>
    obtain ⟨k2, v2⟩ := e
    unfold objSet
    by_cases h : k2 = k
    · rw [if_pos h]
      simp [objGet, h]
    · rw [if_neg h]
      simp [objGet, h, ih]

theorem objGet_objSet_ne {B : Type} {k q : JStr} (v : B) (hne : q ≠ k) :
    ∀ p : List (JStr × B), objGet q (objSet k v p) = objGet q p := by
  intro p
  induction p with
  | nil =>
    simp only [objGet, objSet]
    rw [if_neg (fun h => hne h.symm)]
  | cons e rest ih =>
    obtain ⟨k2, v2⟩ := e
    unfold objSet
    by_cases h : k2 = k
    · rw [if_pos h]
      have : k2 ≠ q := fun h2 => hne (h2.symm.trans h)
      simp [objGet, this]
    · rw [if_neg h]
      by_cases h2 : k2 = q
      · simp [objGet, h2]
      · simp [objGet, h2, ih]

theorem ensureUser_objGet (u : JStr) (p : Progress) :
    objGet u (ensureUser u p) = some ((objGet u p).getD []) := by
  unfold ensureUser
  cases h : objGet u p with
  | none => simp [h, objGet_objSet_self]
  | some m => simp [h]

theorem ensureUser_eq_of_isSome (u : JStr) (p : Progress) (h : (objGet u p).isSome) :
    ensureUser u p = p := by
  unfold ensureUser
  rw [if_pos h]

theorem foldl_applyResult_objGet (u : JStr) :
    ∀ (results : List SessionResult) (p : Progress) (m : WordMap), objGet u p = some m →
      objGet u (results.foldl (applyResult u) p) = some (results.foldl umStep m) := by
  intro results
  induction results with
  | nil => intro p m h; simpa using h
  | cons res rest ih =>
    intro p m h
    rw [List.foldl_cons, List.foldl_cons]
    refine ih (applyResult u p res) (umStep m res) ?_
    unfold applyResult
    rw [h, objGet_objSet_self]
    simp

theorem foldl_applyResult_objGet_ne (u v : JStr) (hne : v ≠ u) :
    ∀ (results : List SessionResult) (p : Progress),
      objGet v (results.foldl (applyResult u) p) = objGet v p := by
  intro results
  induction results with
  | nil => intro p; rfl
  | cons res rest ih =>
    intro p
    rw [List.foldl_cons, ih, applyResult, objGet_objSet_ne _ hne]

theorem foldl_umStep_objGet (w : JStr) :
    ∀ (results : List SessionResult) (m : WordMap),
      objGet w (results.foldl umStep m) =
        if objGet w m = none ∧ cntWord w results = 0 then none
        else some { attempts :=
                      ((objGet w m).getD { attempts := 0, correct := 0 }).attempts +
                        cntWord w results
                    correct :=
                      ((objGet w m).getD { attempts := 0, correct := 0 }).correct +
                        cntCorrect w results } := by
  intro results
  induction results with
  | nil =>
    intro m
    cases h : objGet w m with
    | none => simp [cntWord, cntCorrect, h]
    | some st => simp [cntWord, cntCorrect, h]
  | cons res rest ih =>
    intro m
    rw [List.foldl_cons, ih (umStep m res)]
    by_cases hw : res.word = w
    · have hget : objGet w (umStep m res) =
          some (incStat ((objGet w m).getD { attempts := 0, correct := 0 }) res.correct) := by
        unfold umStep
        rw [hw, objGet_objSet_self]
      have hcw : cntWord w (res :: rest) = cntWord w rest + 1 := by
        simp [cntWord, List.countP_cons, hw]
      have hcc : cntCorrect w (res :: rest) =
          cntCorrect w rest + (if res.correct then 1 else 0) := by
        cases hb : res.correct <;> simp [cntCorrect, List.countP_cons, hw, hb]
      rw [hget, hcw, hcc]
      rw [if_neg (by simp), if_neg (by omega)]
      cases hb : res.correct <;> simp [incStat, hb, WordStat.mk.injEq] <;> omega
    · have hwne : w ≠ res.word := fun h => hw h.symm
      have hget : objGet w (umStep m res) = objGet w m := by
        unfold umStep
        rw [objGet_objSet_ne _ hwne]
      have hcw : cntWord w (res :: rest) = cntWord w rest := by
        simp [cntWord, List.countP_cons, hw]
      have hcc : cntCorrect w (res :: rest) = cntCorrect w rest := by
        simp [cntCorrect, List.countP_cons, hw]
      rw [hget, hcw, hcc]

theorem cntCorrect_le_cntWord (w : JStr) (results : List SessionResult) :
    cntCorrect w results ≤ cntWord w results :=
  List.countP_mono_left (fun _ _ h => (Bool.and_eq_true _ _ |>.mp h).1)

theorem updateProgress_noop_nil (store : Option Progress) (results : List SessionResult) :
    updateProgress store [] results = store := by
  simp [updateProgress]

theorem updateProgress_progGet_ne (store : Option Progress) (u v : JStr)
    (results : List SessionResult) (hv : v ≠ u) :
    progGet v (updateProgress store u results) = progGet v store := by
  by_cases hu : u = []
  · rw [hu, updateProgress_noop_nil]
  · unfold updateProgress
    rw [if_neg hu]
    unfold progGet
    simp only [Option.getD_some]
    rw [foldl_applyResult_objGet_ne u v hv]
    unfold ensureUser
    by_cases hrm : (objGet u (store.getD [])).isSome
    · rw [if_pos hrm]
    · rw [if_neg hrm, objGet_objSet_ne _ hv]

theorem updateProgress_wordGet (store : Option Progress) (u w : JStr)
    (results : List SessionResult) (hu : u ≠ []) :
    wordGet u w (updateProgress store u results) =
      if wordGet u w store = none ∧ cntWord w results = 0 then none
      else some { attempts :=
                    ((wordGet u w store).getD { attempts := 0, correct := 0 }).attempts +
                      cntWord w results
                  correct :=
                    ((wordGet u w store).getD { attempts := 0, correct := 0 }).correct +
                      cntCorrect w results } := by
  unfold updateProgress
  rw [if_neg hu]
  unfold wordGet progGet
  simp only [Option.getD_some]
  rw [foldl_applyResult_objGet u results _ _ (ensureUser_objGet u _), Option.some_bind,
    foldl_umStep_objGet]
  cases hm : objGet u (store.getD []) with
  | none => simp [hm, objGet]
  | some m => simp [hm]

theorem updateProgress_wf (store : Option Progress) (u : JStr)
    (results : List SessionResult) (hst : wfStore store) :
    wfStore (updateProgress store u results) := by
  by_cases hu : u = []
  · rw [hu, updateProgress_noop_nil]
    exact hst
  · intro v w st hget
    by_cases hv : v = u
    · subst hv
      rw [updateProgress_wordGet store v w results hu] at hget
      split at hget
      · exact Option.noConfusion hget
      · have hX := Option.some.inj hget
        have hle := cntCorrect_le_cntWord w results
        have hold : ((wordGet v w store).getD { attempts := 0, correct := 0 }).correct ≤
            ((wordGet v w store).getD { attempts := 0, correct := 0 }).attempts := by
          cases hs : wordGet v w store with
          | none => simp
          | some o => simpa using hst v w o hs
        rw [← hX]
        simp only []
        omega
    · unfold wordGet at hget
      rw [updateProgress_progGet_ne store u v results hv] at hget
      exact hst v w st hget

/-! The claims. -/

/-- Claim C1, counterexample: for the entry `{word:"cat", meaning:"feline",
synonyms:[]}` the correctAnswer stored on the session card is `"cat"`
(`entry.synonyms[0] || entry.word`, no meaning fallback), while the spec's
rule and the correct option embedded by `generateOptions` both give
`"feline"`. -/
theorem c1_counterexample :
    cardCorrect eNoSyn = ("cat").data ∧
    specCorrectAnswer eNoSyn = ("feline").data ∧
    optionsCorrect eNoSyn = ("feline").data ∧
    cardCorrect eNoSyn ≠ specCorrectAnswer eNoSyn ∧
    cardCorrect eNoSyn ≠ optionsCorrect eNoSyn := by
  decide

/-- Claim C1, amended: the SessionCard's correctAnswer equals
`entry.synonyms[0]` when that is non-empty and `entry.word` otherwise (the
meaning-token fallback of the spec is absent from card construction); when
`entry.synonyms[0]` is non-empty the stored correctAnswer coincides with
the correct option that `generateOptions` embeds in the option list. -/
theorem c1_card_correct_amended (e : WordEntry) (pool : List WordEntry) (r1 r2 : Nat → Nat) :
    (syn0 e ≠ [] → cardCorrect e = syn0 e ∧ cardCorrect e = optionsCorrect e ∧
      cardCorrect e ∈ generateOptions r1 r2 e pool) ∧
    (syn0 e = [] → cardCorrect e = e.word) := by
  constructor
  · intro h
    have h1 : cardCorrect e = syn0 e := by
      unfold cardCorrect jsOr
      rw [if_neg h]
    have h2 : optionsCorrect e = syn0 e := by
      unfold optionsCorrect jsOr
      rw [if_neg h]
    refine ⟨h1, h1.trans h2.symm, ?_⟩
    rw [h1, ← h2]
    exact optionsCorrect_mem r1 r2 e pool
  · intro h
    unfold cardCorrect jsOr
    rw [if_pos h]

/-- Claim C1, witness: the amended statement evaluated on a concrete entry
with a synonym. -/
theorem c1_witness :
    syn0 eKitty ≠ [] ∧
    (cardCorrect eKitty = syn0 eKitty ∧ cardCorrect eKitty = optionsCorrect eKitty ∧
      cardCorrect eKitty ∈ generateOptions (fun _ => 0) (fun _ => 0) eKitty [eKitty]) :=
  ⟨by decide, (c1_card_correct_amended eKitty [eKitty] (fun _ => 0) (fun _ => 0)).1 (by decide)⟩

/-- Claim C2, counterexample: for the degenerate entry with empty word,
meaning and synonyms (producible by `parseCSV` from the line `",,,,x"`),
the correct answer is the empty string and the three empty-string
placeholders all match it case-insensitively, so the options contain the
correct answer four times, not exactly once. -/
theorem c2_counterexample :
    eDegenerate ∈ [eDegenerate] ∧
    (generateOptions (fun _ => 0) (fun _ => 0) eDegenerate [eDegenerate]).length = 4 ∧
    (generateOptions (fun _ => 0) (fun _ => 0) eDegenerate [eDegenerate]).countP
      (fun o => toLowerL o == toLowerL (optionsCorrect eDegenerate)) = 4 ∧
    ¬ (generateOptions (fun _ => 0) (fun _ => 0) eDegenerate [eDegenerate]).countP
        (fun o => toLowerL o == toLowerL (optionsCorrect eDegenerate)) = 1 := by
  decide

/-- Claim C2, amended: for every entry, every pool and every random source,
`generateOptions` returns exactly 4 options, and provided the entry's
correct answer is non-empty the options contain it exactly once under
case-insensitive comparison. -/
theorem c2_options_amended (r1 r2 : Nat → Nat) (entry : WordEntry)
    (pool : List WordEntry) (h : optionsCorrect entry ≠ []) :
    (generateOptions r1 r2 entry pool).length = 4 ∧
    (generateOptions r1 r2 entry pool).countP
      (fun o => toLowerL o == toLowerL (optionsCorrect entry)) = 1 :=
  ⟨generateOptions_length r1 r2 entry pool,
   generateOptions_correct_count r1 r2 entry pool h⟩

/-- Claim C2, witness: the amended statement evaluated on a concrete entry. -/
theorem c2_witness :
    optionsCorrect eKitty ≠ [] ∧
    ((generateOptions (fun _ => 0) (fun _ => 0) eKitty [eKitty]).length = 4 ∧
     (generateOptions (fun _ => 0) (fun _ => 0) eKitty [eKitty]).countP
       (fun o => toLowerL o == toLowerL (optionsCorrect eKitty)) = 1) :=
  ⟨by decide, c2_options_amended (fun _ => 0) (fun _ => 0) eKitty [eKitty] (by decide)⟩

/-- Claim C3: for every completed session (the queue emptied), the length of
the accumulated results list equals the initial session size
`min 10 pool.length` plus exactly the number of incorrect answers recorded:
each wrong answer enqueues exactly one fresh card at the back of the queue,
each correct answer enqueues nothing, and the session completes exactly when
the queue empties. -/
theorem c3_session_results_length (g h : Nat → Nat → Nat) (pool : List WordEntry)
    (answers : List JStr) (final : List SessionResult)
    (hrun : runSession g pool answers 0 (initSession h pool) [] = some final) :
    final.length = min 10 pool.length + final.countP (fun r => !r.correct) := by
  have h2 := runSession_length_eq g pool answers 0 (initSession h pool) [] final hrun
  simp only [List.countP_nil, List.length_nil, Nat.add_zero, Nat.zero_add] at h2
  rw [initSession_length] at h2
  omega

/-- Claim C3, witness: a one-entry pool answered correctly on the first
card completes with one result and no incorrect answers. -/
theorem c3_witness :
    ([{ word := ("cat").data, correct := true }] : List SessionResult).length =
      min 10 [eKitty].length +
        ([{ word := ("cat").data, correct := true }] : List SessionResult).countP
          (fun r => !r.correct) :=
  c3_session_results_length (fun _ _ => 0) (fun _ _ => 0) [eKitty] [("KITTY").data]
    [{ word := ("cat").data, correct := true }] (by decide)

/-- Claim C4: running `updateProgress` with `r1` and then with `r2` leaves
the persisted store in exactly the same state as a single call on
`r1 ++ r2`, from any initial store. -/
theorem c4_updateProgress_append (store : Option Progress) (u : JStr)
    (r1 r2 : List SessionResult) :
    updateProgress (updateProgress store u r1) u r2 = updateProgress store u (r1 ++ r2) := by
  by_cases hu : u = []
  · simp [updateProgress, hu]
  · have hfold := foldl_applyResult_objGet u r1 _ _ (ensureUser_objGet u (store.getD []))
    have hens : ensureUser u (List.foldl (applyResult u) (ensureUser u (store.getD [])) r1) =
        List.foldl (applyResult u) (ensureUser u (store.getD [])) r1 :=
      ensureUser_eq_of_isSome u _ (by rw [hfold]; rfl)
    simp only [updateProgress, hu, if_false, Option.getD_some]
    rw [hens, List.foldl_append]

/-- Claim C5: parsing the sample CSV text yields exactly one entry with the
expected word, meaning, split-and-trimmed synonym and antonym lists, and
example sentence (header discarded). -/
theorem c5_parse_sample :
    parseCSV (("word,meaning,synonyms,antonyms,example\ncat,feline,kitty;tomcat,dog,A cat sat.\n").data) =
      [{ word := ("cat").data, meaning := ("feline").data,
         synonyms := [("kitty").data, ("tomcat").data],
         antonyms := [("dog").data], exampleTxt := ("A cat sat.").data }] := by
  decide

/-- Claim C6: the parser is total (every definition here is a total Lean
function of the input text); a non-header line yielding fewer than 5 fields
produces no entry; inserting a fully blank line anywhere between the data
lines leaves the parsed entry sequence unchanged; and concretely a CSV
whose only data line has 3 fields parses to the empty list. -/
theorem c6_parse_tolerant (line : JStr) (ls1 ls2 : List JStr) :
    ((splitCommaNQ line).length < 5 → lineEntry line = none) ∧
    parseBody (ls1 ++ [] :: ls2) = parseBody (ls1 ++ ls2) ∧
    parseCSV (("word,meaning,synonyms,antonyms,example\na,b,c").data) = [] := by
  refine ⟨?_, ?_, by decide⟩
  · intro h
    by_cases hl : line = []
    · rw [lineEntry, if_pos hl]
    · rw [lineEntry, if_neg hl]
      match hsp : splitCommaNQ line with
      | [] => rfl
      | [f1] => rfl
      | [f1, f2] => rfl
      | [f1, f2, f3] => rfl
      | [f1, f2, f3, f4] => rfl
      | f1 :: f2 :: f3 :: f4 :: f5 :: rest =>
        rw [hsp] at h
        simp only [List.length_cons] at h
        omega
  · unfold parseBody
    rw [List.filterMap_append, List.filterMap_append, List.filterMap_cons]
    have h0 : lineEntry [] = none := rfl
    rw [h0]

/-- Claim C6, witness: a 3-field line produces no entry, and a blank line
between two valid rows does not change the parse. -/
theorem c6_witness :
    lineEntry (("a,b,c").data) = none ∧
    parseBody ([("x,y,z,w,v").data] ++ [] :: [("q,r,s,t,u").data]) =
      parseBody ([("x,y,z,w,v").data] ++ [("q,r,s,t,u").data]) :=
  ⟨(c6_parse_tolerant (("a,b,c").data) [] []).1 (by decide),
   (c6_parse_tolerant [] [("x,y,z,w,v").data] [("q,r,s,t,u").data]).2.1⟩

/-- Claim C7: the dashboard total accuracy, the admin per-student accuracy
and the per-word accuracy all equal `round(100 * correct / attempts)` when
`attempts > 0` and `0` when `attempts = 0` (the zero guard avoids the
division), and concretely 10 attempts with 7 correct give 70 while 0
attempts give 0. -/
theorem c7_accuracy_formula :
    (∀ up : WordMap, dashboardAccuracy up =
        if sumAttempts up = 0 then 0
        else jsRound (100 * (sumCorrect up : ℚ) / (sumAttempts up : ℚ))) ∧
    (∀ m : WordMap, adminAccuracy m =
        if sumAttempts m = 0 then 0
        else jsRound (100 * (sumCorrect m : ℚ) / (sumAttempts m : ℚ))) ∧
    (∀ st : WordStat, wordAccuracy st =
        if st.attempts = 0 then 0
        else jsRound (100 * (st.correct : ℚ) / (st.attempts : ℚ))) ∧
    wordAccuracy { attempts := 10, correct := 7 } = 70 ∧
    wordAccuracy { attempts := 0, correct := 0 } = 0 := by
  refine ⟨?_, ?_, ?_, ?_, ?_⟩
  · intro up
    by_cases h : sumAttempts up = 0
    · simp [dashboardAccuracy, h]
    · simp only [dashboardAccuracy, h, if_false]
      congr 1
      ring
  · intro m
    by_cases h : sumAttempts m = 0
    · simp [adminAccuracy, h]
    · simp only [adminAccuracy, h, if_false]
      congr 1
      ring
  · intro st
    by_cases h : st.attempts = 0
    · simp [wordAccuracy, h]
    · simp only [wordAccuracy, h, if_false]
      congr 1
      ring
  · norm_num [wordAccuracy, jsRound]
  · norm_num [wordAccuracy]

/-- Claim C8: uploading a CSV that parses to zero entries is rejected (error
flag, `words` key untouched); a CSV with at least one parsed entry fully
replaces the `words` key with the parsed sequence. -/
theorem c8_upload_gate (store : Option (List WordEntry)) (text : JStr) :
    (parseCSV text = [] → uploadCSVHandler store text = (store, false)) ∧
    (parseCSV text ≠ [] → uploadCSVHandler store text = (some (parseCSV text), true)) := by
  constructor
  · intro h
    simp [uploadCSVHandler, h]
  · intro h
    simp [uploadCSVHandler, List.length_eq_zero, h]

/-- Claim C8, witness: a header-only upload is rejected leaving the store
unchanged; a one-row upload replaces the store. -/
theorem c8_witness :
    uploadCSVHandler (some [eKitty]) (("word,meaning,synonyms,antonyms,example").data) =
      (some [eKitty], false) ∧
    uploadCSVHandler (some [eKitty])
        (("word,meaning,synonyms,antonyms,example\ndog,canine,hound,cat,A dog.").data) =
      (some (parseCSV (("word,meaning,synonyms,antonyms,example\ndog,canine,hound,cat,A dog.").data)),
        true) :=
  ⟨(c8_upload_gate (some [eKitty]) (("word,meaning,synonyms,antonyms,example").data)).1 (by decide),
   (c8_upload_gate (some [eKitty])
     (("word,meaning,synonyms,antonyms,example\ndog,canine,hound,cat,A dog.").data)).2 (by decide)⟩

/-- Claim C9: a non-header line splitting into more than 5 fields keeps only
the first five: the example is field 5 alone and everything after it is
silently discarded (no error, no concatenation of the remainder). -/
theorem c9_extra_fields (line f1 f2 f3 f4 f5 : JStr) (rest : List JStr)
    (hsp : splitCommaNQ line = f1 :: f2 :: f3 :: f4 :: f5 :: rest) :
    lineEntry line =
      some { word := trimJS f1, meaning := trimJS f2, synonyms := splitSynAnt f3,
             antonyms := splitSynAnt f4, exampleTxt := trimJS f5 } := by
  have hl : line ≠ [] := by
    intro h
    rw [h] at hsp
    simp [splitCommaNQ] at hsp
  rw [lineEntry, if_neg hl, hsp]

/-- Claim C9, witness: a 7-field line keeps fields 1-5; the example is the
fifth field alone. -/
theorem c9_witness :
    lineEntry (("a,b,c,d,e,f,g").data) =
      some { word := trimJS (("a").data), meaning := trimJS (("b").data),
             synonyms := splitSynAnt (("c").data), antonyms := splitSynAnt (("d").data),
             exampleTxt := trimJS (("e").data) } :=
  c9_extra_fields (("a,b,c,d,e,f,g").data) (("a").data) (("b").data) (("c").data)
    (("d").data) (("e").data) [("f").data, ("g").data] (by decide)

/-- Claim C10: `updateProgress` with an empty username leaves the store
unchanged; otherwise it leaves every other user's progress unchanged, and
for user `u` the counters of a word `w` are exactly the old counters plus
the number of results for `w` (attempts) and the number of correct results
for `w` (correct) — so counters for words not in the results are unchanged,
counters are never decremented, removed or reset, and
`correct ≤ attempts` is preserved across the whole store. -/
theorem c10_updateProgress_frame (store : Option Progress) (u : JStr)
    (results : List SessionResult) :
    (u = [] → updateProgress store u results = store) ∧
    (∀ v, v ≠ u → progGet v (updateProgress store u results) = progGet v store) ∧
    (u ≠ [] → ∀ w, wordGet u w (updateProgress store u results) =
        if wordGet u w store = none ∧ cntWord w results = 0 then none
        else some { attempts :=
                      ((wordGet u w store).getD { attempts := 0, correct := 0 }).attempts +
                        cntWord w results
                    correct :=
                      ((wordGet u w store).getD { attempts := 0, correct := 0 }).correct +
                        cntCorrect w results }) ∧
    (wfStore store → wfStore (updateProgress store u results)) :=
  ⟨fun hu => hu ▸ updateProgress_noop_nil store results,
   fun v hv => updateProgress_progGet_ne store u v results hv,
   fun hu w => updateProgress_wordGet store u w results hu,
   updateProgress_wf store u results⟩

/-- Claim C10, witness: two results for the same word under user "alice"
yield counters `{attempts: 2, correct: 1}`. -/
theorem c10_witness :
    wordGet (("alice").data) (("cat").data)
      (updateProgress (some []) (("alice").data)
        [{ word := ("cat").data, correct := true },
         { word := ("cat").data, correct := false }]) =
      some { attempts := 2, correct := 1 } := by
  have h := (c10_updateProgress_frame (some []) (("alice").data)
    [{ word := ("cat").data, correct := true },
     { word := ("cat").data, correct := false }]).2.2.1 (by decide) (("cat").data)
  exact h.trans (by decide)

end VocabApp
